import Mathlib

/-!
# Shallow embedding of `more_itertools/__init__.py`

The module defines four utilities over Python iterators:

* `chunked(iterable, n)` — groups an iterable into tuples of length `n` using
  `izip_longest(*[iter(iterable)] * n, fillvalue=_marker)` and strips the
  `_marker` padding off the final short tuple;
* `first(iterable, default=_marker)` — `next(iter(iterable))` with a default,
  raising `ValueError` on an empty iterable without a default;
* `peekable` — a one-item-lookahead wrapper around an iterator, with methods
  `peek`, `next`, `__nonzero__`;
* `collate(*iterables, key=..., reverse=...)` — a k-way sorted merge built on
  `peekable`.

Python iterators over an element type `α` are modelled as the list of elements
they have yet to produce (`List α`); consuming `it.next()` maps `x :: xs` to
`x` with remaining state `xs`, and raises `StopIteration` on `[]`.  Exceptions
are modelled with `Except PyError`.  The private sentinel `_marker` is a fresh
object distinct from every value a caller can supply, so it is modelled by
`none` in `Option α`: real elements travel as `some x` and the sentinel as
`none`.
-/

/-- The two exception kinds the module can raise: `StopIteration` (the spec's
`Exhausted`) from the iterator protocol, and `ValueError` (the spec's
`EmptyIterable`) from `first`. -/
inductive PyError where
  | stopIteration
  | valueError
deriving DecidableEq, Repr

/-! ## `chunked`

`chunked` iterates `izip_longest(*[iter(iterable)] * n, fillvalue=_marker)`:
`n` references to one shared iterator, so each yielded tuple is the next `n`
elements of the source, the final short tuple being padded at its end with
`_marker` (never a tuple that is entirely padding: `izip_longest` stops, with
no further yield, once every slot hits an exhausted iterator).  For `n ≤ 0`,
`[iter(iterable)] * n` is the empty list of iterators and `izip_longest()`
yields nothing.  The marker is `none`, real elements are `some x`. -/

/-- One tuple yielded by `izip_longest` over `n` copies of the shared
iterator whose next elements are `l` (with `l ≠ []` and `l.length ≤ n` in the
padded case): the elements of `l`, then `_marker` padding up to width `n`. -/
def padGroup (n : Nat) (l : List α) : List (Option α) :=
  l.map some ++ List.replicate (n - l.length) none

/-- The whole sequence of tuples yielded by
`izip_longest(*[iter(iterable)] * (m+1), fillvalue=_marker)`: successive
groups of `m + 1` source elements, the last group padded.  The width is
`m + 1` so that the shared iterator provably advances each round. -/
def izipSame (m : Nat) : List α → List (List (Option α))
  | [] => []
  | x :: xs => padGroup (m + 1) ((x :: xs).take (m + 1)) :: izipSame m (xs.drop m)
termination_by l => l.length
decreasing_by
  simpa using Nat.lt_succ_of_le (List.length_drop m xs ▸ Nat.sub_le xs.length m)

/-- `group[-1] is _marker`: the last slot of the group is the sentinel. -/
def lastIsMarker (g : List (Option α)) : Bool :=
  match g.getLast? with
  | some none => true
  | _ => false

/-- The per-group body of `chunked`'s loop: a group is yielded as-is unless
its last slot is the `_marker` (`group[-1] is _marker`), in which case every
`_marker` is stripped from it (`tuple(x for x in group if x is not _marker)`)
before the yield. -/
def stripGroup (g : List (Option α)) : List (Option α) :=
  if lastIsMarker g then g.filter (·.isSome) else g

/-- `chunked(iterable, n)`: strip each `izip_longest` group's padding when its
last slot is the sentinel.  `n` is a Python integer, so `n : Int`; for
`n ≤ 0` the `izip_longest` runs over zero iterators and yields nothing. -/
def chunked (l : List α) (n : Int) : List (List (Option α)) :=
  if n ≤ 0 then []
  else (izipSame (n.toNat - 1) l).map stripGroup

/-! ## `first` -/

/-- `next(it)` for an iterator with remaining elements `l`: the produced
element and the rest, or `StopIteration` on exhaustion. -/
def nextI : List α → Option (α × List α)
  | [] => none
  | x :: xs => some (x, xs)

/-- `first(iterable, default=_marker)`.  The optional `default` argument is
`Option α` (`none` models "no default supplied", i.e. the `_marker`
sentinel).  A single `next(iter(iterable))` is attempted; on `StopIteration`
the default is returned when supplied, otherwise `ValueError` is raised. -/
def first (l : List α) (dflt : Option α) : Except PyError α :=
  match nextI l with
  | some (x, _) => .ok x
  | none =>
    match dflt with
    | none => .error .valueError
    | some d => .ok d

/-! ## `peekable` -/

/-- State of a `peekable` object: `it` models `self._it` (the remaining
elements of the underlying iterator) and `cached` models the `self._peek`
attribute — `none` when the attribute is absent, `some v` when it is set. -/
structure peekable (α : Type u) where
  it : List α
  cached : Option α
deriving DecidableEq, Repr

namespace peekable

/-- `peekable.__init__`: wrap an iterator; no `_peek` attribute yet. -/
def mk0 (l : List α) : peekable α := ⟨l, none⟩

/-- `peekable.peek`: if `_peek` is not set, set it to `self._it.next()`
(propagating `StopIteration`, which leaves the state unchanged); return the
cached value.  The result pairs the outcome with the state after the call. -/
def peek (s : peekable α) : Except PyError α × peekable α :=
  match s.cached with
  | some v => (.ok v, s)
  | none =>
    match s.it with
    | [] => (.error .stopIteration, s)
    | x :: xs => (.ok x, ⟨xs, some x⟩)

/-- `peekable.next`: `ret = self.peek(); del self._peek; return ret`.  A
`StopIteration` from `peek` propagates before the `del`. -/
def next (s : peekable α) : Except PyError α × peekable α :=
  match peek s with
  | (.error e, s1) => (.error e, s1)
  | (.ok v, s1) => (.ok v, { s1 with cached := none })

/-- `peekable.__nonzero__`: `try: self.peek() except StopIteration: return
False; return True`.  The peek's state change (filling the cache) persists. -/
def nonzero (s : peekable α) : Bool × peekable α :=
  match peek s with
  | (.error _, s1) => (false, s1)
  | (.ok _, s1) => (true, s1)

end peekable

/-! ## `collate`

`collate(*iterables, key=..., reverse=...)` wraps each input in `peekable`,
filters out immediately-empty wrappers (`[p for p in peekables if p]`, which
calls `__nonzero__` and thereby caches each survivor's head), then loops:
`min`/`max` over `(key(p.peek()), p)` selects a live source with extremal
head key, `p.next()` yields its head, and the comprehension filter drops `p`
from the live list (in place, order preserved) once it is exhausted.

A live wrapper always has its head cached: it is the state
`⟨t, some h⟩ = peekable` with peeked value `h` and remaining iterator `t`, so
the live set is modelled as a `List (α × List α)` of `(h, t)` pairs
(`entryList` recovers the elements the wrapper has yet to produce).

Python's `min`/`max` scan left to right and replace the current best only on
a strict win of the tuple comparison `(key(p.peek()), p) < (key(q.peek()), q)`;
when the keys tie the comparison falls through to the `peekable` objects
themselves, which Python 2 orders arbitrarily (by address).  The embedding
determinises this unspecified tie-break: the best is replaced only on a
strictly better key, so the earliest live source wins ties.  All theorems
about `collate` hold for every tie-break; none depends on this choice.
`lt` is the strict comparison on keys: `(· < ·)` for `min`,
`(fun a b => b < a)` for `max` (`reverse=True`). -/

/-- The elements a live wrapper `(h, t)` has yet to produce: its cached head
`h` followed by the remaining iterator `t`. -/
def entryList (e : α × List α) : List α := e.1 :: e.2

/-- `p.next()` on a live wrapper, then `if p`: the wrapper stays (re-peeked,
in place) unless exhausted, in which case it leaves the live list. -/
def advance1 (e : α × List α) : List (α × List α) :=
  match e.2 with
  | [] => []
  | x :: xs => [(x, xs)]

/-- Total number of elements the live wrappers have yet to produce; the
merge loop's termination measure. -/
def liveSize (ps : List (α × List α)) : Nat :=
  (ps.map fun e => e.2.length + 1).sum

/-- One `min`/`max` scan over the live list, Python style: `b` is the best so
far, `pre` the (reversed) entries before it, `post` the (reversed) entries
after it already scanned, `rest` the entries still to scan.  Returns the
entries before the winner, the winner, and the entries after it, in original
order. -/
def scanBest (lt : β → β → Bool) (key : α → β) :
    List (α × List α) → (α × List α) → List (α × List α) → List (α × List α) →
    List (α × List α) × (α × List α) × List (α × List α)
  | pre, b, post, [] => (pre.reverse, b, post.reverse)
  | pre, b, post, p :: ps =>
    if lt (key p.1) (key b.1) then scanBest lt key (post ++ b :: pre) p [] ps
    else scanBest lt key pre b (p :: post) ps

theorem scanBest_decomp (lt : β → β → Bool) (key : α → β) :
    ∀ (rest : List (α × List α)) (pre : List (α × List α)) (b : α × List α)
      (post : List (α × List α)),
      (scanBest lt key pre b post rest).1 ++ (scanBest lt key pre b post rest).2.1 ::
        (scanBest lt key pre b post rest).2.2 =
      pre.reverse ++ b :: (post.reverse ++ rest) := by
  intro rest
  induction rest with
  | nil => intro pre b post; simp [scanBest]
  | cons p ps ih =>
    intro pre b post
    rw [scanBest]
    by_cases h : lt (key p.1) (key b.1) = true
    · rw [if_pos h, ih]
      simp
    · rw [if_neg h, ih]
      simp

theorem liveSize_append (l₁ l₂ : List (α × List α)) :
    liveSize (l₁ ++ l₂) = liveSize l₁ + liveSize l₂ := by
  simp [liveSize]

theorem liveSize_advance1 (e : α × List α) : liveSize (advance1 e) = e.2.length := by
  rcases e with ⟨h, t⟩
  cases t <;> simp [advance1, liveSize]

theorem liveSize_cons (e : α × List α) (l : List (α × List α)) :
    liveSize (e :: l) = e.2.length + 1 + liveSize l := by
  simp [liveSize]

theorem liveSize_step (P Q : List (α × List α)) (c : α × List α) :
    liveSize (P ++ advance1 c ++ Q) + 1 = liveSize (P ++ c :: Q) := by
  rw [liveSize_append, liveSize_append, liveSize_advance1, liveSize_append, liveSize_cons]
  omega

/-- The merge loop of `collate`: while the live list is nonempty, select an
extremal-head source with one `min`/`max` scan, yield its head, and advance
that source in place (dropping it if exhausted). -/
def collateGo (lt : β → β → Bool) (key : α → β) : List (α × List α) → List α
  | [] => []
  | p :: ps =>
    let t := scanBest lt key [] p [] ps
    t.2.1.1 :: collateGo lt key (t.1 ++ advance1 t.2.1 ++ t.2.2)
termination_by ps => liveSize ps
decreasing_by
  have hd := scanBest_decomp lt key ps [] p []
  simp only [List.reverse_nil, List.nil_append] at hd
  have hs := liveSize_step (scanBest lt key [] p [] ps).1 (scanBest lt key [] p [] ps).2.2
    (scanBest lt key [] p [] ps).2.1
  rw [hd] at hs
  omega

/-- `[p for p in [peekable(it) for it in iterables] if p]`: wrap every input,
keep the nonempty ones with their head peeked. -/
def toLive (ls : List (List α)) : List (α × List α) :=
  ls.filterMap fun l =>
    match l with
    | [] => none
    | x :: xs => some (x, xs)

/-- The key comparison `min`/`max` performs: `min` replaces its best on
`keyNew < keyBest`, `max` (`reverse=True`) on `keyBest < keyNew`. -/
def ltB [LinearOrder β] (rev : Bool) : β → β → Bool :=
  if rev then fun a b => decide (b < a) else fun a b => decide (a < b)

/-- `collate(*iterables, key=key, reverse=rev)`. -/
def collate [LinearOrder β] (key : α → β) (rev : Bool) (ls : List (List α)) : List α :=
  collateGo (ltB rev) key (toLive ls)

/-- The order the output of `collate` is promised in, and the order each
input is assumed to be in: non-decreasing by `key` by default, non-increasing
when `reverse` is set. -/
def dirLE [LinearOrder β] (key : α → β) (rev : Bool) (a b : α) : Prop :=
  if rev then key b ≤ key a else key a ≤ key b

/-! ### Lemmas about the merge loop -/

theorem collateGo_cons (lt : β → β → Bool) (key : α → β) (p : α × List α)
    (ps : List (α × List α)) :
    collateGo lt key (p :: ps) =
      (scanBest lt key [] p [] ps).2.1.1 ::
        collateGo lt key
          ((scanBest lt key [] p [] ps).1 ++ advance1 (scanBest lt key [] p [] ps).2.1 ++
            (scanBest lt key [] p [] ps).2.2) := by
  rw [collateGo]

theorem advance1_flatten (e : α × List α) :
    ((advance1 e).map entryList).flatten = e.2 := by
  rcases e with ⟨h, t⟩
  cases t <;> simp [advance1, entryList]

theorem collateGo_perm (lt : β → β → Bool) (key : α → β) :
    ∀ (n : Nat) (live : List (α × List α)), liveSize live ≤ n →
      (collateGo lt key live).Perm (live.map entryList).flatten := by
  intro n
  induction n with
  | zero =>
    intro live hle
    cases live with
    | nil => simp [collateGo]
    | cons p ps => rw [liveSize_cons] at hle; omega
  | succ n ih =>
    intro live hle
    cases live with
    | nil => simp [collateGo]
    | cons p ps =>
      rw [collateGo_cons]
      have hd := scanBest_decomp lt key ps [] p []
      simp only [List.reverse_nil, List.nil_append] at hd
      set P := (scanBest lt key [] p [] ps).1 with hP
      set c := (scanBest lt key [] p [] ps).2.1 with hc
      set Q := (scanBest lt key [] p [] ps).2.2 with hQ
      have hsz : liveSize (P ++ advance1 c ++ Q) ≤ n := by
        have hs := liveSize_step P Q c
        rw [hd] at hs
        omega
      have hperm := ih (P ++ advance1 c ++ Q) hsz
      have h2 : ((P ++ advance1 c ++ Q).map entryList).flatten
          = (P.map entryList).flatten ++ (c.2 ++ (Q.map entryList).flatten) := by
        simp [List.map_append, List.flatten_append, advance1_flatten, List.append_assoc]
      have h3 : ((p :: ps).map entryList).flatten
          = (P.map entryList).flatten ++ (entryList c ++ (Q.map entryList).flatten) := by
        rw [← hd]
        simp [List.map_append, List.flatten_append, List.append_assoc]
      rw [h3]
      refine (hperm.cons c.1).trans ?_
      rw [h2]
      have hm := @List.perm_middle _ c.1 ((P.map entryList).flatten)
        (c.2 ++ (Q.map entryList).flatten)
      simpa [entryList, List.append_assoc] using hm.symm

theorem scanBest_minimal (lt : β → β → Bool) (key : α → β)
    (hA1 : ∀ a b c : β, lt a b = true → lt c b = false → lt c a = false)
    (hA2 : ∀ a : β, lt a a = false) :
    ∀ (rest : List (α × List α)) (pre : List (α × List α)) (b : α × List α)
      (post : List (α × List α)),
      (∀ e ∈ pre, lt (key e.1) (key b.1) = false) →
      (∀ e ∈ post, lt (key e.1) (key b.1) = false) →
      ∀ e, (e ∈ (scanBest lt key pre b post rest).1 ∨
            e ∈ (scanBest lt key pre b post rest).2.2) →
        lt (key e.1) (key (scanBest lt key pre b post rest).2.1.1) = false := by
  intro rest
  induction rest with
  | nil =>
    intro pre b post hpre hpost e he
    simp only [scanBest, List.mem_reverse] at he
    rcases he with h | h
    · exact hpre e h
    · exact hpost e h
  | cons p ps ih =>
    intro pre b post hpre hpost e he
    rw [scanBest] at he ⊢
    by_cases h : lt (key p.1) (key b.1) = true
    · rw [if_pos h] at he ⊢
      refine ih (post ++ b :: pre) p [] ?_ (by simp) e he
      intro e' he'
      rcases List.mem_append.mp he' with h' | h'
      · exact hA1 _ _ _ h (hpost e' h')
      · rcases List.mem_cons.mp h' with h' | h'
        · subst h'; exact hA1 _ _ _ h (hA2 _)
        · exact hA1 _ _ _ h (hpre e' h')
    · rw [if_neg h] at he ⊢
      refine ih pre b (p :: post) hpre ?_ e he
      intro e' he'
      rcases List.mem_cons.mp he' with h' | h'
      · subst h'; exact Bool.eq_false_iff.mpr h
      · exact hpost e' h'

theorem collateGo_sorted (lt : β → β → Bool) (key : α → β)
    (hA1 : ∀ a b c : β, lt a b = true → lt c b = false → lt c a = false)
    (hA2 : ∀ a : β, lt a a = false)
    (hA3 : ∀ a b c : β, lt b a = false → lt c b = false → lt c a = false) :
    ∀ (n : Nat) (live : List (α × List α)), liveSize live ≤ n →
      (∀ e ∈ live, (entryList e).Pairwise fun x y => lt (key y) (key x) = false) →
      (collateGo lt key live).Pairwise fun x y => lt (key y) (key x) = false := by
  intro n
  induction n with
  | zero =>
    intro live hle _
    cases live with
    | nil => simp [collateGo]
    | cons p ps => rw [liveSize_cons] at hle; omega
  | succ n ih =>
    intro live hle hsort
    cases live with
    | nil => simp [collateGo]
    | cons p ps =>
      rw [collateGo_cons]
      have hd := scanBest_decomp lt key ps [] p []
      simp only [List.reverse_nil, List.nil_append] at hd
      set P := (scanBest lt key [] p [] ps).1 with hP
      set c := (scanBest lt key [] p [] ps).2.1 with hc
      set Q := (scanBest lt key [] p [] ps).2.2 with hQ
      have hmemPQ : ∀ e, e ∈ P ∨ e ∈ Q → e ∈ p :: ps := by
        intro e he
        rw [← hd]
        rcases he with h | h
        · exact List.mem_append.mpr (Or.inl h)
        · exact List.mem_append.mpr (Or.inr (List.mem_cons_of_mem c h))
      have hcmem : c ∈ p :: ps := by
        rw [← hd]; exact List.mem_append.mpr (Or.inr (List.mem_cons_self c Q))
      have hmin := scanBest_minimal lt key hA1 hA2 ps [] p [] (by simp) (by simp)
      have hsz : liveSize (P ++ advance1 c ++ Q) ≤ n := by
        have hs := liveSize_step P Q c
        rw [hd] at hs
        omega
      have hsort' : ∀ e ∈ P ++ advance1 c ++ Q,
          (entryList e).Pairwise fun x y => lt (key y) (key x) = false := by
        intro e he
        rcases List.mem_append.mp he with he | he
        · rcases List.mem_append.mp he with he | he
          · exact hsort e (hmemPQ e (Or.inl he))
          · rcases e with ⟨h0, t0⟩
            rcases hc2 : c.2 with _ | ⟨x0, xs0⟩ <;> simp [advance1, hc2] at he
            have := hsort c hcmem
            simp only [entryList, List.pairwise_cons] at this ⊢
            have h2 := this.2
            rw [hc2] at h2
            simp only [List.pairwise_cons] at h2
            rcases he with ⟨he1, he2⟩
            subst he1; subst he2
            exact h2
        · exact hsort e (hmemPQ e (Or.inr he))
      have hrest := ih (P ++ advance1 c ++ Q) hsz hsort'
      rw [List.pairwise_cons]
      refine ⟨?_, hrest⟩
      intro x hx
      have hx' : x ∈ ((P ++ advance1 c ++ Q).map entryList).flatten :=
        ((collateGo_perm lt key (liveSize (P ++ advance1 c ++ Q))
          (P ++ advance1 c ++ Q) le_rfl).mem_iff).mp hx
      rw [List.mem_flatten] at hx'
      rcases hx' with ⟨l, hl, hxl⟩
      rw [List.mem_map] at hl
      rcases hl with ⟨e', he', rfl⟩
      rcases List.mem_append.mp he' with he' | he'
      · rcases List.mem_append.mp he' with he' | he'
        · -- e' is an untouched live source strictly before the winner
          have hlt := hmin e' (Or.inl he')
          rcases List.mem_cons.mp hxl with h' | h'
          · subst h'; exact hlt
          · have hp := hsort e' (hmemPQ e' (Or.inl he'))
            simp only [entryList, List.pairwise_cons] at hp
            exact hA3 _ _ _ hlt (hp.1 x h')
        · -- e' is the advanced winner: x comes from c's tail
          have hp := hsort c hcmem
          simp only [entryList, List.pairwise_cons] at hp
          refine hp.1 x ?_
          rcases hc2 : c.2 with _ | ⟨x0, xs0⟩ <;> simp [advance1, hc2] at he'
          subst he'
          simpa [entryList] using hxl
      · have hlt := hmin e' (Or.inr he')
        rcases List.mem_cons.mp hxl with h' | h'
        · subst h'; exact hlt
        · have hp := hsort e' (hmemPQ e' (Or.inr he'))
          simp only [entryList, List.pairwise_cons] at hp
          exact hA3 _ _ _ hlt (hp.1 x h')

theorem collateGo_filter_tag {τ : Type u} {α : Type v} {β : Sort w} [DecidableEq τ]
    (lt : β → β → Bool) (key : τ × α → β) (i : τ) :
    ∀ (n : Nat) (live : List ((τ × α) × List (τ × α))), liveSize live ≤ n →
      (∀ e ∈ live, ∀ x ∈ entryList e, x.1 = e.1.1) →
      ((live.map fun e => e.1.1).Nodup) →
      (collateGo lt key live).filter (fun x => decide (x.1 = i)) =
        ((live.filter fun e => decide (e.1.1 = i)).map entryList).flatten := by
  intro n
  induction n with
  | zero =>
    intro live hle _ _
    cases live with
    | nil => simp [collateGo]
    | cons p ps => rw [liveSize_cons] at hle; omega
  | succ n ih =>
    intro live hle huni hnd
    cases live with
    | nil => simp [collateGo]
    | cons p ps =>
      rw [collateGo_cons]
      have hd := scanBest_decomp lt key ps [] p []
      simp only [List.reverse_nil, List.nil_append] at hd
      set P := (scanBest lt key [] p [] ps).1 with hP
      set c := (scanBest lt key [] p [] ps).2.1 with hc
      set Q := (scanBest lt key [] p [] ps).2.2 with hQ
      have hmemPQ : ∀ e, e ∈ P ∨ e ∈ Q → e ∈ p :: ps := by
        intro e he
        rw [← hd]
        rcases he with h | h
        · exact List.mem_append.mpr (Or.inl h)
        · exact List.mem_append.mpr (Or.inr (List.mem_cons_of_mem c h))
      have hcmem : c ∈ p :: ps := by
        rw [← hd]; exact List.mem_append.mpr (Or.inr (List.mem_cons_self c Q))
      have hsz : liveSize (P ++ advance1 c ++ Q) ≤ n := by
        have hs := liveSize_step P Q c
        rw [hd] at hs
        omega
      have huni' : ∀ e ∈ P ++ advance1 c ++ Q, ∀ x ∈ entryList e, x.1 = e.1.1 := by
        intro e he x hx
        rcases List.mem_append.mp he with he | he
        · rcases List.mem_append.mp he with he | he
          · exact huni e (hmemPQ e (Or.inl he)) x hx
          · rcases hc2 : c.2 with _ | ⟨x0, xs0⟩ <;> simp [advance1, hc2] at he
            subst he
            simp only [entryList] at hx
            have h1 := huni c hcmem x (by rw [entryList, hc2]; exact List.mem_cons_of_mem _ hx)
            have h2 := huni c hcmem x0 (by simp [entryList, hc2])
            simp only
            rw [h1, ← h2]
        · exact huni e (hmemPQ e (Or.inr he)) x hx
      have hnd0 : ((P ++ c :: Q).map fun e => e.1.1).Nodup := by rw [hd]; exact hnd
      rw [List.map_append, List.map_cons] at hnd0
      have hPc : ∀ e ∈ P, e.1.1 ≠ c.1.1 := by
        intro e he hEq
        have hdisj := (List.nodup_append.mp hnd0).2.2
        exact hdisj (List.mem_map_of_mem (fun e => e.1.1) he)
          (by rw [hEq]; exact List.mem_cons_self _ _)
      have hQc : ∀ e ∈ Q, e.1.1 ≠ c.1.1 := by
        intro e he
        have hnd1 := (List.nodup_append.mp hnd0).2.1
        rw [List.nodup_cons] at hnd1
        intro hEq
        exact hnd1.1 (hEq ▸ List.mem_map_of_mem (fun e => e.1.1) he)
      have hadv : ((advance1 c).map fun e => e.1.1) = [] ∨
          ((advance1 c).map fun e => e.1.1) = [c.1.1] := by
        rcases hc2 : c.2 with _ | ⟨x0, xs0⟩
        · left; simp [advance1, hc2]
        · right
          simp only [advance1, hc2, List.map_cons, List.map_nil]
          have := huni c hcmem x0 (by simp [entryList, hc2])
          simp [this]
      have hnd2 : ((P ++ advance1 c ++ Q).map fun e => e.1.1).Nodup := by
        rw [List.map_append, List.map_append]
        rcases hadv with h | h <;> rw [h]
        · refine List.Nodup.sublist ?_ hnd0
          simp only [List.append_nil]
          exact List.Sublist.append_left (List.sublist_cons_self c.1.1 (Q.map fun e => e.1.1)) _
        · simpa using hnd0
      have hfnew := ih (P ++ advance1 c ++ Q) hsz huni' hnd2
      rw [List.filter_cons, hfnew]
      rw [← hd]
      by_cases hqc : c.1.1 = i
      · have hfP : (P.filter fun e => decide (e.1.1 = i)) = [] := by
          rw [List.filter_eq_nil_iff]
          intro e he
          simp only [decide_eq_true_eq]
          exact fun hEq => hPc e he (hEq.trans hqc.symm)
        have hfQ : (Q.filter fun e => decide (e.1.1 = i)) = [] := by
          rw [List.filter_eq_nil_iff]
          intro e he
          simp only [decide_eq_true_eq]
          exact fun hEq => hQc e he (hEq.trans hqc.symm)
        have hfA : ((advance1 c).filter fun e => decide (e.1.1 = i)) = advance1 c := by
          rw [List.filter_eq_self]
          intro e he
          simp only [decide_eq_true_eq]
          rcases hc2 : c.2 with _ | ⟨x0, xs0⟩ <;> simp [advance1, hc2] at he
          subst he
          have := huni c hcmem x0 (by simp [entryList, hc2])
          simp only
          rw [this, hqc]
        have hq1 : decide (c.1.1 = i) = true := by simp [hqc]
        simp only [List.filter_append, List.filter_cons, hq1, hfP, hfQ, hfA, if_true,
          List.map_append, List.flatten_append, List.map_nil, List.flatten_nil,
          List.nil_append, List.append_nil, List.map_cons, List.flatten_cons]
        rw [advance1_flatten]
        simp [entryList]
      · have hfA : ((advance1 c).filter fun e => decide (e.1.1 = i)) = [] := by
          rw [List.filter_eq_nil_iff]
          intro e he
          simp only [decide_eq_true_eq]
          rcases hc2 : c.2 with _ | ⟨x0, xs0⟩ <;> simp [advance1, hc2] at he
          subst he
          have := huni c hcmem x0 (by simp [entryList, hc2])
          simp only
          rw [this]
          exact hqc
        have hq1 : decide (c.1.1 = i) = false := by simp [hqc]
        have hq2 : decide (c.1.1 = i) = true → False := by simp [hqc]
        simp only [List.filter_append, List.filter_cons, hq1, hfA, if_false,
          List.map_append, List.flatten_append, List.map_nil, List.flatten_nil,
          List.nil_append, List.append_nil]
        simp [hqc]

/-! ### Bridging lemmas between the loop and `collate`'s interface -/

theorem toLive_flatten (ls : List (List α)) :
    ((toLive ls).map entryList).flatten = ls.flatten := by
  induction ls with
  | nil => simp [toLive]
  | cons l ls ih =>
    cases l with
    | nil => simpa [toLive] using ih
    | cons x xs =>
      simp only [toLive, List.filterMap_cons] at ih ⊢
      simpa [entryList] using ih

theorem toLive_append (l₁ l₂ : List (List α)) :
    toLive (l₁ ++ l₂) = toLive l₁ ++ toLive l₂ := by
  simp [toLive, List.filterMap_append]

theorem ltB_A1 [LinearOrder β] (rev : Bool) :
    ∀ a b c : β, ltB rev a b = true → ltB rev c b = false → ltB rev c a = false := by
  cases rev <;> intro a b c h1 h2 <;>
    simp only [ltB, Bool.false_eq_true, if_false, if_true, decide_eq_true_eq,
      decide_eq_false_iff_not, not_lt] at h1 h2 ⊢
  · exact h1.le.trans h2
  · exact h2.trans h1.le

theorem ltB_A2 [LinearOrder β] (rev : Bool) : ∀ a : β, ltB rev a a = false := by
  cases rev <;> intro a <;> simp [ltB]

theorem ltB_A3 [LinearOrder β] (rev : Bool) :
    ∀ a b c : β, ltB rev b a = false → ltB rev c b = false → ltB rev c a = false := by
  cases rev <;> intro a b c h1 h2 <;>
    simp only [ltB, Bool.false_eq_true, if_false, if_true, decide_eq_true_eq,
      decide_eq_false_iff_not, not_lt] at h1 h2 ⊢
  · exact h1.trans h2
  · exact h2.trans h1

theorem dirLE_iff [LinearOrder β] (key : α → β) (rev : Bool) (x y : α) :
    dirLE key rev x y ↔ ltB rev (key y) (key x) = false := by
  cases rev <;>
    simp [dirLE, ltB, not_lt]

/-- Unconditionally, `collate` emits a permutation of the concatenation of
its inputs: every element of every input exactly once. -/
theorem collate_perm [LinearOrder β] (key : α → β) (rev : Bool) (ls : List (List α)) :
    (collate key rev ls).Perm ls.flatten := by
  have h := collateGo_perm (ltB rev) key (liveSize (toLive ls)) (toLive ls) le_rfl
  rw [toLive_flatten] at h
  exact h

/-- If every input is sorted in the chosen direction, the output of
`collate` is sorted in that direction. -/
theorem collate_sorted [LinearOrder β] (key : α → β) (rev : Bool) (ls : List (List α))
    (hs : ∀ l ∈ ls, l.Pairwise (dirLE key rev)) :
    (collate key rev ls).Pairwise (dirLE key rev) := by
  have hmem : ∀ e ∈ toLive ls, ∃ l ∈ ls, entryList e = l := by
    intro e he
    simp only [toLive, List.mem_filterMap] at he
    rcases he with ⟨l, hl, hle⟩
    refine ⟨l, hl, ?_⟩
    cases l with
    | nil => simp at hle
    | cons x xs => simp at hle; rw [← hle]; rfl
  have h := collateGo_sorted (ltB rev) key (ltB_A1 rev) (ltB_A2 rev) (ltB_A3 rev)
    (liveSize (toLive ls)) (toLive ls) le_rfl ?_
  · refine h.imp ?_
    intro x y hxy
    exact (dirLE_iff key rev x y).mpr hxy
  · intro e he
    rcases hmem e he with ⟨l, hl, hle⟩
    rw [hle]
    refine (hs l hl).imp ?_
    intro x y hxy
    exact (dirLE_iff key rev x y).mp hxy

instance [LinearOrder β] (key : α → β) (rev : Bool) (a b : α) :
    Decidable (dirLE key rev a b) := by
  unfold dirLE
  infer_instance

/-- C1: for inputs each sorted consistently with the key and direction, the
sorted merge `collate` emits every element of every input exactly once (its
output is a permutation of the concatenation of the inputs), in an order
sorted by `key` under the chosen direction. -/
theorem claim_C1_collate_sorted_merge [LinearOrder β] (key : α → β) (rev : Bool)
    (ls : List (List α)) (hs : ∀ l ∈ ls, l.Pairwise (dirLE key rev)) :
    (collate key rev ls).Perm ls.flatten ∧ (collate key rev ls).Pairwise (dirLE key rev) :=
  ⟨collate_perm key rev ls, collate_sorted key rev ls hs⟩

/-- Witness for C1 at a concrete reversed merge of two descending lists. -/
theorem claim_C1_witness :
    (∀ l ∈ [[5, 3], [4, 2]], l.Pairwise (dirLE (id : Nat → Nat) true)) ∧
    ((collate (id : Nat → Nat) true [[5, 3], [4, 2]]).Perm [[5, 3], [4, 2]].flatten ∧
      (collate (id : Nat → Nat) true [[5, 3], [4, 2]]).Pairwise (dirLE id true)) :=
  ⟨by decide, claim_C1_collate_sorted_merge (id : Nat → Nat) true [[5, 3], [4, 2]] (by decide)⟩

/-- C9: an empty input contributes nothing to the merge and is excluded from
every selection round (inserting an empty input anywhere changes nothing);
the merge emits exactly one output element per input element and then
terminates (it terminates exactly when the live set empties: the output is
empty iff every input is). -/
theorem claim_C9_collate_live_set [LinearOrder β] (key : α → β) (rev : Bool) :
    (∀ l₁ l₂ : List (List α), collate key rev (l₁ ++ [] :: l₂) = collate key rev (l₁ ++ l₂)) ∧
    (∀ ls : List (List α), (collate key rev ls).length = (ls.map List.length).sum) ∧
    (∀ ls : List (List α), collate key rev ls = [] ↔ ∀ l ∈ ls, l = []) := by
  have hlen : ∀ ls : List (List α), (collate key rev ls).length = (ls.map List.length).sum := by
    intro ls
    rw [(collate_perm key rev ls).length_eq]
    simp [List.length_flatten]
  refine ⟨?_, hlen, ?_⟩
  · intro l₁ l₂
    unfold collate
    rw [toLive_append, toLive_append]
    have : toLive ([] :: l₂) = toLive l₂ := by simp [toLive]
    rw [this]
  · intro ls
    rw [← List.length_eq_zero, hlen ls]
    rw [List.sum_eq_zero_iff]
    constructor
    · intro h l hl
      have := h l.length (List.mem_map_of_mem List.length hl)
      exact List.length_eq_zero.mp this
    · intro h x hx
      rcases List.mem_map.mp hx with ⟨l, hl, rfl⟩
      rw [h l hl]
      rfl

/-! ### `first` and `peekable` claims -/

/-- C3: `first` returns the head of a non-empty source; on an empty source it
returns the supplied default, or raises `ValueError` (the spec's
`EmptyIterable`) when none was supplied; and it consumes at most one element:
its result depends only on the first element of the source
(`first l d = first (l.take 1) d`). -/
theorem claim_C3_first {α : Type u} :
    (∀ (x : α) (xs : List α) (d : Option α), first (x :: xs) d = .ok x) ∧
    (∀ v : α, first ([] : List α) (some v) = .ok v) ∧
    (first ([] : List α) none = .error .valueError) ∧
    (∀ (l : List α) (d : Option α), first l d = first (l.take 1) d) := by
  refine ⟨fun x xs d => rfl, fun v => rfl, rfl, fun l d => ?_⟩
  cases l <;> rfl

/-- The spec's "clearing the cache": drop the cached value, keep the
underlying iterator. -/
def clearCache (s : peekable α) : peekable α := { s with cached := none }

/-- Modelled from the spec's description of `next()`: perform a `peek()`
(cached or not), then clear the cache and return the peeked value,
propagating `peek`'s failure unchanged. -/
def nextSpec (s : peekable α) : Except PyError α × peekable α :=
  match peekable.peek s with
  | (.ok v, s1) => (.ok v, clearCache s1)
  | (.error e, s1) => (.error e, s1)

/-- C4: `peek` is idempotent.  If a `peek` succeeds with value `v` and
post-state `s1`, then `peek` on `s1` returns the same value and leaves the
state fixed (so any number of repeated `peek`s return `v` and change
nothing), the value is cached, and at most one element was consumed from the
underlying source in total (`s.it = s1.it` on a cache hit, `s.it = v :: s1.it`
when the first call populated the cache). -/
theorem claim_C4_peek_idempotent (s s1 : peekable α) (v : α)
    (h : peekable.peek s = (.ok v, s1)) :
    peekable.peek s1 = (.ok v, s1) ∧ s1.cached = some v ∧
      (s.it = s1.it ∨ s.it = v :: s1.it) := by
  rcases s with ⟨it, cached⟩
  cases cached with
  | some w =>
    simp [peekable.peek] at h
    rcases h with ⟨h1, h2⟩
    subst h1
    rw [← h2]
    exact ⟨rfl, rfl, Or.inl rfl⟩
  | none =>
    cases it with
    | nil => simp [peekable.peek] at h
    | cons x xs =>
      simp [peekable.peek] at h
      rcases h with ⟨h1, h2⟩
      subst h1
      rw [← h2]
      exact ⟨rfl, rfl, Or.inr rfl⟩

/-- Witness for C4 on a fresh wrapper over `[0, 1]`. -/
theorem claim_C4_witness :
    peekable.peek (peekable.mk0 [0, 1]) = (.ok 0, ⟨[1], some 0⟩) ∧
    (peekable.peek (⟨[1], some 0⟩ : peekable Nat) = (.ok 0, ⟨[1], some 0⟩) ∧
      (⟨[1], some 0⟩ : peekable Nat).cached = some 0 ∧
      ((peekable.mk0 [0, 1]).it = (⟨[1], some 0⟩ : peekable Nat).it ∨
        (peekable.mk0 [0, 1]).it = 0 :: (⟨[1], some 0⟩ : peekable Nat).it)) :=
  ⟨rfl, claim_C4_peek_idempotent (peekable.mk0 [0, 1]) ⟨[1], some 0⟩ 0 rfl⟩

/-- C5: `next()` is `peek()` followed by clearing the cache: it equals the
spec-side `nextSpec` on every state, returns exactly what `peek` returns,
leaves the wrapper with no cached value on success, and fails (with
`StopIteration`, the spec's `Exhausted`) exactly when `peek` fails. -/
theorem claim_C5_next_refines_peek (s : peekable α) :
    peekable.next s = nextSpec s ∧
    (∀ v s1, peekable.peek s = (.ok v, s1) →
      peekable.next s = (.ok v, clearCache s1) ∧ (peekable.next s).2.cached = none) ∧
    (∀ e s1, peekable.peek s = (.error e, s1) → peekable.next s = (.error e, s1)) := by
  refine ⟨?_, ?_, ?_⟩
  · rw [peekable.next, nextSpec]
    rcases h : peekable.peek s with ⟨r, s1⟩
    cases r <;> rfl
  · intro v s1 h
    rw [peekable.next, h]
    exact ⟨rfl, rfl⟩
  · intro e s1 h
    rw [peekable.next, h]

/-- Witness for C5 on a fresh wrapper over `[0, 1]`. -/
theorem claim_C5_witness :
    peekable.next (peekable.mk0 [0, 1]) = (.ok 0, clearCache ⟨[1], some 0⟩) ∧
    peekable.next (peekable.mk0 ([] : List Nat)) =
      (.error .stopIteration, peekable.mk0 []) :=
  ⟨((claim_C5_next_refines_peek (peekable.mk0 [0, 1])).2.1 0 ⟨[1], some 0⟩ rfl).1,
    (claim_C5_next_refines_peek (peekable.mk0 ([] : List Nat))).2.2 .stopIteration
      (peekable.mk0 []) rfl⟩

/-- C6: `__nonzero__` returns `true` iff a `peek` would succeed (it never
raises: it is a total function into `Bool × peekable α`); it disturbs the
state only by the read-ahead `peek` performs — on success the post-state is
`peek`'s post-state and a subsequent `next` still returns the read-ahead
value; on failure the state is exactly unchanged. -/
theorem claim_C6_nonzero (s : peekable α) :
    ((peekable.nonzero s).1 = true ↔ ∃ v s1, peekable.peek s = (.ok v, s1)) ∧
    (∀ v s1, peekable.peek s = (.ok v, s1) →
      peekable.nonzero s = (true, s1) ∧ peekable.next s1 = (.ok v, clearCache s1)) ∧
    (∀ e s1, peekable.peek s = (.error e, s1) →
      peekable.nonzero s = (false, s1) ∧ s1 = s) := by
  refine ⟨?_, ?_, ?_⟩
  · rw [peekable.nonzero]
    rcases h : peekable.peek s with ⟨r, s1⟩
    cases r with
    | error e => simp
    | ok v => simp
  · intro v s1 h
    have hidem := claim_C4_peek_idempotent s s1 v h
    refine ⟨?_, ?_⟩
    · rw [peekable.nonzero, h]
    · rw [peekable.next, hidem.1]
      rfl
  · intro e s1 h
    rw [peekable.nonzero, h]
    refine ⟨rfl, ?_⟩
    rcases s with ⟨it, cached⟩
    cases cached with
    | some w => simp [peekable.peek] at h
    | none =>
      cases it with
      | nil => simp [peekable.peek] at h; exact h.2.symm
      | cons x xs => simp [peekable.peek] at h

/-- Witness for C6 on a fresh wrapper over `[7]` and on an empty wrapper. -/
theorem claim_C6_witness :
    (peekable.nonzero (peekable.mk0 [7]) = (true, ⟨[], some 7⟩) ∧
      peekable.next (⟨[], some 7⟩ : peekable Nat) = (.ok 7, clearCache ⟨[], some 7⟩)) ∧
    (peekable.nonzero (peekable.mk0 ([] : List Nat)) = (false, peekable.mk0 []) ∧
      peekable.mk0 ([] : List Nat) = peekable.mk0 []) :=
  ⟨(claim_C6_nonzero (peekable.mk0 [7])).2.1 7 ⟨[], some 7⟩ rfl,
    (claim_C6_nonzero (peekable.mk0 ([] : List Nat))).2.2 .stopIteration
      (peekable.mk0 []) rfl⟩

/-- C7: `peek` and `next` fail, with `StopIteration` (the spec's
`Exhausted`), exactly in the terminal condition — underlying source exhausted
and no cached value — and there they leave the state unchanged, so every
subsequent `peek`/`next` keeps failing the same way. -/
theorem claim_C7_exhausted (s : peekable α) :
    ((peekable.peek s).1 = .error .stopIteration ↔ s.it = [] ∧ s.cached = none) ∧
    ((peekable.next s).1 = .error .stopIteration ↔ s.it = [] ∧ s.cached = none) ∧
    (s.it = [] → s.cached = none →
      peekable.peek s = (.error .stopIteration, s) ∧
        peekable.next s = (.error .stopIteration, s)) := by
  rcases s with ⟨it, cached⟩
  cases cached with
  | some w => simp [peekable.peek, peekable.next]
  | none =>
    cases it with
    | nil => simp [peekable.peek, peekable.next]
    | cons x xs => simp [peekable.peek, peekable.next]

/-- Witness for C7 on an exhausted wrapper with an empty cache. -/
theorem claim_C7_witness :
    peekable.peek (peekable.mk0 ([] : List Nat)) = (.error .stopIteration, peekable.mk0 []) ∧
    peekable.next (peekable.mk0 ([] : List Nat)) = (.error .stopIteration, peekable.mk0 []) :=
  (claim_C7_exhausted (peekable.mk0 ([] : List Nat))).2.2 rfl rfl

/-! ### `chunked` claims -/

theorem stripGroup_map_some (l : List α) (h : l ≠ []) :
    stripGroup (l.map some) = l.map some := by
  obtain ⟨a, ha⟩ := Option.isSome_iff_exists.mp (List.getLast?_isSome.mpr h)
  rw [stripGroup, if_neg]
  rw [lastIsMarker, List.getLast?_map, ha]
  simp

theorem stripGroup_padded (l : List α) (k : Nat) (hk : k ≠ 0) :
    stripGroup (l.map some ++ List.replicate k none) = l.map some := by
  have hmark : lastIsMarker (l.map some ++ List.replicate k none) = true := by
    rw [lastIsMarker, List.getLast?_append, List.getLast?_replicate, if_neg hk]
    rfl
  rw [stripGroup, if_pos hmark, List.filter_append]
  have h1 : (l.map some).filter (·.isSome) = l.map some := by
    rw [List.filter_eq_self]
    intro a ha
    rcases List.mem_map.mp ha with ⟨b, _, rfl⟩
    rfl
  have h2 : (List.replicate k (none : Option α)).filter (·.isSome) = [] := by
    rw [List.filter_eq_nil_iff]
    intro a ha
    rw [List.eq_of_mem_replicate ha]
    simp
  rw [h1, h2, List.append_nil]

theorem izipSame_spec (m : Nat) :
    ∀ (n : Nat) (l : List α), l.length ≤ n →
      (((izipSame m l).map stripGroup).flatten = l.map some) ∧
      (∀ g ∈ (izipSame m l).map stripGroup, none ∉ g ∧ 1 ≤ g.length ∧ g.length ≤ m + 1) ∧
      (∀ g ∈ ((izipSame m l).map stripGroup).dropLast, g.length = m + 1) ∧
      (izipSame m l = [] ↔ l = []) := by
  intro n
  induction n with
  | zero =>
    intro l hle
    have : l = [] := by
      cases l with
      | nil => rfl
      | cons x xs => simp at hle
    subst this
    simp [izipSame]
  | succ n ih =>
    intro l hle
    cases l with
    | nil => simp [izipSame]
    | cons x xs =>
      rw [izipSame]
      rcases lt_trichotomy xs.length m with hlt | heq | hgt
      · -- short final group: pad then strip, no further groups
        have hdrop : xs.drop m = [] := List.drop_eq_nil_of_le hlt.le
        have htake : (x :: xs).take (m + 1) = x :: xs :=
          List.take_of_length_le (by simp; omega)
        have hpad : padGroup (m + 1) (x :: xs) =
            (x :: xs).map some ++ List.replicate (m - xs.length) none := by
          rw [padGroup]
          congr 1
          simp
        have hstrip : stripGroup (padGroup (m + 1) (x :: xs)) = (x :: xs).map some := by
          rw [hpad]
          exact stripGroup_padded (x :: xs) (m - xs.length) (by omega)
        rw [htake, hdrop]
        refine ⟨?_, ?_, ?_, ?_⟩
        · simp [izipSame, hstrip]
        · intro g hg
          simp only [izipSame, List.map_cons, List.map_nil, List.mem_singleton] at hg
          rw [hstrip] at hg
          subst hg
          refine ⟨?_, by simp, by simp; omega⟩
          intro hmem
          rcases List.mem_map.mp hmem with ⟨b, _, hb⟩
          exact Option.noConfusion hb
        · intro g hg
          simp [izipSame, hstrip] at hg
        · simp [izipSame]
      · -- the source length is an exact multiple: full group, no padding
        have hdrop : xs.drop m = [] := List.drop_eq_nil_of_le heq.le
        have htake : (x :: xs).take (m + 1) = x :: xs :=
          List.take_of_length_le (by simp; omega)
        have hpad : padGroup (m + 1) (x :: xs) = (x :: xs).map some := by
          rw [padGroup]
          have : m + 1 - (x :: xs).length = 0 := by simp; omega
          rw [this]
          simp
        have hstrip : stripGroup (padGroup (m + 1) (x :: xs)) = (x :: xs).map some := by
          rw [hpad]
          exact stripGroup_map_some _ (List.cons_ne_nil x xs)
        rw [htake, hdrop]
        refine ⟨?_, ?_, ?_, ?_⟩
        · simp [izipSame, hstrip]
        · intro g hg
          simp only [izipSame, List.map_cons, List.map_nil, List.mem_singleton] at hg
          rw [hstrip] at hg
          subst hg
          refine ⟨?_, by simp, by simp; omega⟩
          intro hmem
          rcases List.mem_map.mp hmem with ⟨b, _, hb⟩
          exact Option.noConfusion hb
        · intro g hg
          simp [izipSame, hstrip] at hg
        · simp [izipSame]
      · -- full group, and at least one further element remains
        have htlen : ((x :: xs).take (m + 1)).length = m + 1 := by
          rw [List.length_take]
          simp
          omega
        have hpad : padGroup (m + 1) ((x :: xs).take (m + 1)) =
            ((x :: xs).take (m + 1)).map some := by
          rw [padGroup, htlen]
          simp
        have htne : (x :: xs).take (m + 1) ≠ [] := by
          intro h
          rw [h] at htlen
          simp at htlen
        have hstrip : stripGroup (padGroup (m + 1) ((x :: xs).take (m + 1))) =
            ((x :: xs).take (m + 1)).map some := by
          rw [hpad]
          exact stripGroup_map_some _ htne
        have hdne : xs.drop m ≠ [] := by
          intro h
          have := congrArg List.length h
          rw [List.length_drop] at this
          simp at this
          omega
        have hrec := ih (xs.drop m) (by rw [List.length_drop]; simp at hle; omega)
        have hrne : izipSame m (xs.drop m) ≠ [] := fun h => hdne (hrec.2.2.2.mp h)
        refine ⟨?_, ?_, ?_, ?_⟩
        · simp only [List.map_cons, List.flatten_cons, hstrip, hrec.1]
          have : xs.drop m = (x :: xs).drop (m + 1) := (List.drop_succ_cons).symm
          rw [this, ← List.map_append, List.take_append_drop]
          rfl
        · intro g hg
          simp only [List.map_cons, List.mem_cons] at hg
          rcases hg with hg | hg
          · rw [hstrip] at hg
            subst hg
            refine ⟨?_, ?_, ?_⟩
            · intro hmem
              rcases List.mem_map.mp hmem with ⟨b, _, hb⟩
              exact Option.noConfusion hb
            · rw [List.length_map, htlen]; omega
            · rw [List.length_map, htlen]
          · exact hrec.2.1 g hg
        · intro g hg
          simp only [List.map_cons] at hg
          rw [List.dropLast_cons_of_ne_nil (by simpa using hrne)] at hg
          rcases List.mem_cons.mp hg with hg | hg
          · rw [hstrip] at hg
            subst hg
            rw [List.length_map, htlen]
          · exact hrec.2.2.1 g hg
        · simp

/-- C2: for every source `l` and positive `n`, the groups of `chunked l n`
concatenate back to exactly the source (embedded as `some`-values, since no
`_marker`/`none` padding survives in any yielded group), every group has
length in `[1, n]`, every group but possibly the last has length exactly `n`,
and there are zero groups iff the source is empty. -/
theorem claim_C2_chunked (l : List α) (n : Int) (hn : 0 < n) :
    ((chunked l n).flatten = l.map some) ∧
    (∀ g ∈ chunked l n, none ∉ g ∧ 1 ≤ g.length ∧ g.length ≤ n.toNat) ∧
    (∀ g ∈ (chunked l n).dropLast, g.length = n.toNat) ∧
    (chunked l n = [] ↔ l = []) := by
  have hm : n.toNat - 1 + 1 = n.toNat := by omega
  have main := izipSame_spec (n.toNat - 1) l.length l le_rfl
  rw [hm] at main
  rw [chunked, if_neg (not_le.mpr hn)]
  refine ⟨main.1, main.2.1, main.2.2.1, ?_⟩
  rw [← main.2.2.2]
  simp

/-- Witness for C2: `chunked [1,2,3,4,5] 3`. -/
theorem claim_C2_witness :
    ((chunked [1, 2, 3, 4, 5] 3).flatten = [1, 2, 3, 4, 5].map some) ∧
    (∀ g ∈ chunked [1, 2, 3, 4, 5] 3, none ∉ g ∧ 1 ≤ g.length ∧ g.length ≤ (3 : Int).toNat) ∧
    (∀ g ∈ (chunked [1, 2, 3, 4, 5] 3).dropLast, g.length = (3 : Int).toNat) ∧
    (chunked [1, 2, 3, 4, 5] 3 = [] ↔ ([1, 2, 3, 4, 5] : List Nat) = []) :=
  claim_C2_chunked [1, 2, 3, 4, 5] 3 (by decide)

/-- C10: for `n ≤ 0`, `chunked` yields zero groups for every source —
`[iter(iterable)] * n` is the empty list of iterators, so the `izip_longest`
is immediately exhausted: no error, no loop, and (as the result does not
depend on `l` at all) nothing consumed from the source. -/
theorem claim_C10_chunked_nonpos (l : List α) (n : Int) (hn : n ≤ 0) :
    chunked l n = [] := by
  rw [chunked, if_pos hn]

/-- Witness for C10 at `n = -2`. -/
theorem claim_C10_witness : chunked [1, 2, 3] (-2) = [] :=
  claim_C10_chunked_nonpos [1, 2, 3] (-2) (by decide)

/-! ### Per-source stability of `collate` (C8)

To speak about the provenance of output elements, each input is tagged with
its source index before the merge: source `i`'s elements become `(i, x)` and
the key function reads only the value part, so the tagged merge makes
exactly the comparisons and choices of the untagged one
(`collate_untag` below) while every element carries its origin. -/

/-- Tag each input list with its source index, starting at `j`. -/
def tagLists (j : Nat) : List (List α) → List (List (Nat × α))
  | [] => []
  | l :: ls => (l.map fun a => (j, a)) :: tagLists (j + 1) ls

/-- Forget the tags of one live merge entry. -/
def untagE (e : (Nat × α) × List (Nat × α)) : α × List α :=
  (e.1.2, e.2.map Prod.snd)

theorem scanBest_untag (lt : β → β → Bool) (key : α → β) :
    ∀ (rest pre : List ((Nat × α) × List (Nat × α))) (b : (Nat × α) × List (Nat × α))
      (post : List ((Nat × α) × List (Nat × α))),
      ((scanBest lt (fun p => key p.2) pre b post rest).1.map untagE =
          (scanBest lt key (pre.map untagE) (untagE b) (post.map untagE)
            (rest.map untagE)).1) ∧
      (untagE (scanBest lt (fun p => key p.2) pre b post rest).2.1 =
          (scanBest lt key (pre.map untagE) (untagE b) (post.map untagE)
            (rest.map untagE)).2.1) ∧
      ((scanBest lt (fun p => key p.2) pre b post rest).2.2.map untagE =
          (scanBest lt key (pre.map untagE) (untagE b) (post.map untagE)
            (rest.map untagE)).2.2) := by
  intro rest
  induction rest with
  | nil =>
    intro pre b post
    simp [scanBest, List.map_reverse]
  | cons p ps ih =>
    intro pre b post
    have hkey : ∀ e : (Nat × α) × List (Nat × α), key (untagE e).1 = key e.1.2 := fun e => rfl
    rw [scanBest, List.map_cons, scanBest]
    by_cases h : lt (key p.1.2) (key b.1.2) = true
    · rw [if_pos h, if_pos (by rw [hkey p, hkey b]; exact h)]
      have := ih (post ++ b :: pre) p []
      simpa using this
    · rw [if_neg h, if_neg (by rw [hkey p, hkey b]; exact h)]
      have := ih pre b (p :: post)
      simpa using this

theorem advance1_untag (e : (Nat × α) × List (Nat × α)) :
    (advance1 e).map untagE = advance1 (untagE e) := by
  rcases e with ⟨h, t⟩
  cases t <;> simp [advance1, untagE]

theorem liveSize_untag (live : List ((Nat × α) × List (Nat × α))) :
    liveSize (live.map untagE) = liveSize live := by
  induction live with
  | nil => rfl
  | cons e l ih => rw [List.map_cons, liveSize_cons, liveSize_cons, ih, untagE]; simp

theorem collateGo_untag (lt : β → β → Bool) (key : α → β) :
    ∀ (n : Nat) (live : List ((Nat × α) × List (Nat × α))), liveSize live ≤ n →
      (collateGo lt (fun p => key p.2) live).map Prod.snd =
        collateGo lt key (live.map untagE) := by
  intro n
  induction n with
  | zero =>
    intro live hle
    cases live with
    | nil => simp [collateGo]
    | cons p ps => rw [liveSize_cons] at hle; omega
  | succ n ih =>
    intro live hle
    cases live with
    | nil => simp [collateGo]
    | cons p ps =>
      rw [collateGo_cons, List.map_cons, List.map_cons, collateGo_cons]
      have hs := scanBest_untag lt key ps [] p []
      simp only [List.map_nil] at hs
      have hd := scanBest_decomp lt (fun p : Nat × α => key p.2) ps [] p []
      simp only [List.reverse_nil, List.nil_append] at hd
      have hsz : liveSize ((scanBest lt (fun p => key p.2) [] p [] ps).1 ++
          advance1 (scanBest lt (fun p => key p.2) [] p [] ps).2.1 ++
          (scanBest lt (fun p => key p.2) [] p [] ps).2.2) ≤ n := by
        have hstep := liveSize_step (scanBest lt (fun p => key p.2) [] p [] ps).1
          (scanBest lt (fun p => key p.2) [] p [] ps).2.2
          (scanBest lt (fun p => key p.2) [] p [] ps).2.1
        rw [hd] at hstep
        omega
      congr 1
      · rw [← hs.2.1]
        rfl
      · rw [ih _ hsz]
        congr 1
        rw [List.map_append, List.map_append, hs.1, hs.2.2, advance1_untag, hs.2.1]

theorem toLive_cons_nil (ls : List (List α)) : toLive ([] :: ls) = toLive ls := rfl

theorem toLive_cons_cons (a : α) (as : List α) (ls : List (List α)) :
    toLive ((a :: as) :: ls) = (a, as) :: toLive ls := rfl

theorem toLive_tagLists_untag (ls : List (List α)) :
    ∀ j : Nat, (toLive (tagLists j ls)).map untagE = toLive ls := by
  induction ls with
  | nil => intro j; rfl
  | cons l ls ih =>
    intro j
    cases l with
    | nil => rw [tagLists, List.map_nil, toLive_cons_nil, toLive_cons_nil]; exact ih (j + 1)
    | cons a as =>
      rw [tagLists, List.map_cons, toLive_cons_cons, toLive_cons_cons, List.map_cons,
        ih (j + 1)]
      congr 1
      rw [untagE]
      simp

theorem tagLists_uniform (ls : List (List α)) :
    ∀ j : Nat, ∀ e ∈ toLive (tagLists j ls), ∀ x ∈ entryList e, x.1 = e.1.1 := by
  induction ls with
  | nil => intro j e he; simp [tagLists, toLive] at he
  | cons l ls ih =>
    intro j e he x hx
    cases l with
    | nil =>
      rw [tagLists, List.map_nil, toLive_cons_nil] at he
      exact ih (j + 1) e he x hx
    | cons a as =>
      rw [tagLists, List.map_cons, toLive_cons_cons] at he
      rcases List.mem_cons.mp he with he | he
      · subst he
        simp only [entryList] at hx
        rcases List.mem_cons.mp hx with hx | hx
        · subst hx; rfl
        · rcases List.mem_map.mp hx with ⟨b, _, rfl⟩; rfl
      · exact ih (j + 1) e he x hx

theorem tagLists_tag_ge (ls : List (List α)) :
    ∀ j : Nat, ∀ e ∈ toLive (tagLists j ls), j ≤ e.1.1 := by
  induction ls with
  | nil => intro j e he; simp [tagLists, toLive] at he
  | cons l ls ih =>
    intro j e he
    cases l with
    | nil =>
      rw [tagLists, List.map_nil, toLive_cons_nil] at he
      exact le_trans (Nat.le_succ j) (ih (j + 1) e he)
    | cons a as =>
      rw [tagLists, List.map_cons, toLive_cons_cons] at he
      rcases List.mem_cons.mp he with he | he
      · subst he; exact le_rfl
      · exact le_trans (Nat.le_succ j) (ih (j + 1) e he)

theorem tagLists_nodup (ls : List (List α)) :
    ∀ j : Nat, ((toLive (tagLists j ls)).map fun e => e.1.1).Nodup := by
  induction ls with
  | nil => intro j; simp [tagLists, toLive]
  | cons l ls ih =>
    intro j
    cases l with
    | nil =>
      rw [tagLists, List.map_nil, toLive_cons_nil]
      exact ih (j + 1)
    | cons a as =>
      rw [tagLists, List.map_cons, toLive_cons_cons, List.map_cons, List.nodup_cons]
      refine ⟨?_, ih (j + 1)⟩
      intro hmem
      rcases List.mem_map.mp hmem with ⟨e, he, htag⟩
      have := tagLists_tag_ge ls (j + 1) e he
      simp at htag
      omega

theorem tagLists_filter (ls : List (List α)) :
    ∀ j i : Nat,
      (((toLive (tagLists j ls)).filter fun e => decide (e.1.1 = j + i)).map
        entryList).flatten = (ls.getD i []).map fun a => (j + i, a) := by
  induction ls with
  | nil => intro j i; simp [tagLists, toLive]
  | cons l ls ih =>
    intro j i
    have htail0 : ((toLive (tagLists (j + 1) ls)).filter fun e => decide (e.1.1 = j)) = [] := by
      rw [List.filter_eq_nil_iff]
      intro e he
      have := tagLists_tag_ge ls (j + 1) e he
      simp only [decide_eq_true_eq]
      omega
    cases l with
    | nil =>
      rw [tagLists, List.map_nil, toLive_cons_nil]
      cases i with
      | zero =>
        simp only [Nat.add_zero]
        rw [htail0]
        simp
      | succ i =>
        have := ih (j + 1) i
        rw [show j + 1 + i = j + (i + 1) by omega] at this
        rw [this]
        rfl
    | cons a as =>
      rw [tagLists, List.map_cons, toLive_cons_cons, List.filter_cons]
      cases i with
      | zero =>
        simp only [Nat.add_zero]
        rw [if_pos (by simp), htail0]
        simp [entryList]
      | succ i =>
        rw [if_neg (by intro h; simp at h; try omega)]
        have := ih (j + 1) i
        rw [show j + 1 + i = j + (i + 1) by omega] at this
        rw [this]
        rfl

/-- C8: per-source stability of the merge.  Tagging every element with its
source index (a bookkeeping device the key function ignores) changes nothing:
the tagged merge projects back to the plain merge.  In the tagged merge, the
subsequence of output elements originating from source `i` is exactly source
`i` itself — elements of one source appear in the output in the order that
source produced them, because each source is only ever read in order. -/
theorem claim_C8_collate_stable [LinearOrder β] (key : α → β) (rev : Bool)
    (ls : List (List α)) (i : Nat) :
    ((collate (fun p => key p.2) rev (tagLists 0 ls)).map Prod.snd = collate key rev ls) ∧
    (((collate (fun p => key p.2) rev (tagLists 0 ls)).filter fun p =>
        decide (p.1 = i)).map Prod.snd = ls.getD i []) := by
  constructor
  · unfold collate
    rw [collateGo_untag (ltB rev) key (liveSize (toLive (tagLists 0 ls)))
      (toLive (tagLists 0 ls)) le_rfl, toLive_tagLists_untag ls 0]
  · unfold collate
    rw [collateGo_filter_tag (ltB rev) (fun p => key p.2) i
      (liveSize (toLive (tagLists 0 ls))) (toLive (tagLists 0 ls)) le_rfl
      (tagLists_uniform ls 0) (tagLists_nodup ls 0)]
    have hf := tagLists_filter ls 0 i
    simp only [Nat.zero_add] at hf
    rw [hf]
    simp
